import Mathlib

/-!
Verification of `hobbit/actions/__init__.py`.

The embedding models:
* `Action.__hash__` / `Action._get_kwargs_hash` — the XOR-fold identity hash
  over positional args and (possibly nested) keyword-attribute mappings.
  Python hash values are modelled as natural numbers combined with bitwise
  XOR (`^^^`); the Python builtin `hash` is an abstract parameter
  `h : α → Nat`, and the distinguished value `e : α` stands for the empty
  string `''` whose hash seeds the folds.
* `CheckPageRepeat` — the page-repeat guard, including its literal stop
  condition `self.__repeat_page > self.__repeat_page`.
* `ThreadAction.get_pages` — the drain loop of the generator, modelled on an
  explicit completion-ordered list of finished fetch tasks (completion order
  is the only concurrency-dependent input of the sequential generator body).
* `ThreadAction.__init__` — the `kwargs.get('max_workers') or 5` default.
-/

namespace Hobbit

/-- A Python value usable as a kwargs value in `Action`: either a hashable
scalar or a nested keyed mapping (`MutableMapping`). -/
inductive KwValue (α : Type) where
  | scalar (a : α)
  | mapping (entries : List (α × KwValue α))

mutual

/-- The loop of `Action._get_kwargs_hash`: accumulator starts at `hash('')`
(the caller passes `h e`), and each `key, value` item XORs in
`_get_kwargs_hash(value)` when the value is a mapping, else
`hash(key) ^ hash(value)`. -/
def kwargsHashAux (h : α → Nat) (e : α) (acc : Nat) :
    List (α × KwValue α) → Nat
  | [] => acc
  | (k, v) :: rest => kwargsHashAux h e (acc ^^^ entryContrib h e k v) rest

/-- The contribution one `key, value` item XORs into the accumulator, as the
conditional expression on the right of `kwargs_hash ^=` computes it. -/
def entryContrib (h : α → Nat) (e : α) (k : α) : KwValue α → Nat
  | .scalar a => h k ^^^ h a
  | .mapping es => kwargsHashAux h e (h e) es

end

/-- `Action._get_kwargs_hash(kwargs)`. -/
def kwargsHash (h : α → Nat) (e : α) (kwargs : List (α × KwValue α)) : Nat :=
  kwargsHashAux h e (h e) kwargs

/-- `reduce(xor, map(hash, self.args)) if self.args else hash('')`. -/
def argsHash (h : α → Nat) (e : α) : List α → Nat
  | [] => h e
  | a :: rest => rest.foldl (fun acc x => acc ^^^ h x) (h a)

/-- `Action.__hash__`: the kwargs hash XORed with the args hash. -/
def actionHash (h : α → Nat) (e : α) (args : List α)
    (kwargs : List (α × KwValue α)) : Nat :=
  kwargsHash h e kwargs ^^^ argsHash h e args

theorem kwargsHashAux_xor (h : α → Nat) (e : α) :
    ∀ (es : List (α × KwValue α)) (a b : Nat),
      kwargsHashAux h e (a ^^^ b) es = a ^^^ kwargsHashAux h e b es
  | [], _, _ => rfl
  | (k, v) :: rest, a, b => by
      simp only [kwargsHashAux]
      rw [Nat.xor_assoc]
      exact kwargsHashAux_xor h e rest a (b ^^^ entryContrib h e k v)

theorem kwargsHash_cons (h : α → Nat) (e : α) (k : α) (v : KwValue α)
    (rest : List (α × KwValue α)) :
    kwargsHash h e ((k, v) :: rest) = entryContrib h e k v ^^^ kwargsHash h e rest := by
  simp only [kwargsHash, kwargsHashAux]
  rw [Nat.xor_comm (h e) (entryContrib h e k v)]
  exact kwargsHashAux_xor h e rest _ _

/-- Recursive equality of kwargs values up to insertion order: scalars must be
equal, and two mappings are equivalent when one entry list can be reordered
into the other with recursively equivalent values under equal keys. The
mapping constructors mirror `List.Perm` (nil, cons, swap of adjacent entries,
transitivity), so the relation captures exactly "same key/value pairs inserted
in different orders, recursively". -/
inductive KwEquiv : KwValue α → KwValue α → Prop where
  | scalar (a : α) : KwEquiv (.scalar a) (.scalar a)
  | mnil : KwEquiv (.mapping []) (.mapping [])
  | mcons {v1 v2 : KwValue α} {t1 t2 : List (α × KwValue α)} (k : α) :
      KwEquiv v1 v2 → KwEquiv (.mapping t1) (.mapping t2) →
      KwEquiv (.mapping ((k, v1) :: t1)) (.mapping ((k, v2) :: t2))
  | mswap (k1 k2 : α) (v1 v2 : KwValue α) (t : List (α × KwValue α)) :
      KwEquiv (.mapping ((k1, v1) :: (k2, v2) :: t))
        (.mapping ((k2, v2) :: (k1, v1) :: t))
  | mtrans {u v w : KwValue α} : KwEquiv u v → KwEquiv v w → KwEquiv u w

theorem KwEquiv.refl : (v : KwValue α) → KwEquiv v v
  | .scalar a => .scalar a
  | .mapping [] => .mnil
  | .mapping ((k, v) :: t) => .mcons k (KwEquiv.refl v) (KwEquiv.refl (.mapping t))

theorem kwEquiv_entryContrib (h : α → Nat) (e : α) {v1 v2 : KwValue α}
    (heq : KwEquiv v1 v2) : ∀ k, entryContrib h e k v1 = entryContrib h e k v2 := by
  induction heq with
  | scalar a => intro k; rfl
  | mnil => intro k; rfl
  | mcons k0 hv ht ihv iht =>
      intro k
      simp only [entryContrib, kwargsHashAux]
      rw [ihv k0]
      have ht' := iht k0
      simp only [entryContrib] at ht'
      rw [Nat.xor_comm (h e) _, kwargsHashAux_xor, kwargsHashAux_xor, ht']
  | mswap k1 k2 w1 w2 t =>
      intro k
      simp only [entryContrib, kwargsHashAux]
      have hacc : (h e ^^^ entryContrib h e k1 w1) ^^^ entryContrib h e k2 w2
          = (h e ^^^ entryContrib h e k2 w2) ^^^ entryContrib h e k1 w1 := by
        rw [Nat.xor_assoc, Nat.xor_comm (entryContrib h e k1 w1) _, ← Nat.xor_assoc]
      rw [hacc]
  | mtrans h1 h2 ih1 ih2 => intro k; rw [ih1 k, ih2 k]

theorem kwargsHash_equiv (h : α → Nat) (e : α) {kw1 kw2 : List (α × KwValue α)}
    (heq : KwEquiv (KwValue.mapping kw1) (KwValue.mapping kw2)) :
    kwargsHash h e kw1 = kwargsHash h e kw2 :=
  kwEquiv_entryContrib h e heq e

/-- XOR of the hashes of all list elements, zero-seeded. -/
def xorFold (h : α → Nat) (l : List α) : Nat :=
  l.foldr (fun x acc => h x ^^^ acc) 0

theorem foldl_xor_eq (h : α → Nat) :
    ∀ (l : List α) (acc : Nat),
      l.foldl (fun a x => a ^^^ h x) acc = acc ^^^ xorFold h l
  | [], acc => by simp [xorFold]
  | x :: rest, acc => by
      simp only [List.foldl, xorFold, List.foldr]
      rw [foldl_xor_eq h rest (acc ^^^ h x), Nat.xor_assoc]
      rfl

theorem xorFold_perm (h : α → Nat) {l1 l2 : List α} (p : l1.Perm l2) :
    xorFold h l1 = xorFold h l2 := by
  induction p with
  | nil => rfl
  | cons x _ ih => simp only [xorFold, List.foldr] at *; rw [ih]
  | swap x y l =>
      simp only [xorFold, List.foldr]
      rw [← Nat.xor_assoc, Nat.xor_comm (h y) (h x), Nat.xor_assoc]
  | trans _ _ ih1 ih2 => rw [ih1, ih2]

theorem argsHash_perm (h : α → Nat) (e : α) {l1 l2 : List α} (p : l1.Perm l2) :
    argsHash h e l1 = argsHash h e l2 := by
  cases l1 with
  | nil => rw [p.nil_eq.symm]
  | cons a r1 =>
      cases l2 with
      | nil => exact absurd p.symm.nil_eq (by simp)
      | cons b r2 =>
          simp only [argsHash]
          rw [foldl_xor_eq, foldl_xor_eq]
          have : xorFold h (a :: r1) = xorFold h (b :: r2) := xorFold_perm h p
          simp only [xorFold, List.foldr] at this ⊢
          rw [Nat.xor_comm (h a) _, Nat.xor_comm (h b) _] at this
          calc h a ^^^ xorFold h r1 = xorFold h r1 ^^^ h a := Nat.xor_comm _ _
            _ = xorFold h r2 ^^^ h b := this
            _ = h b ^^^ xorFold h r2 := Nat.xor_comm _ _

/-- C1: two Actions built from the same multiset of positional args (any
listing order) and recursively-equal kwargs mappings (any insertion order at
every nesting level) have the same `__hash__` value. -/
theorem action_hash_order_independent (h : α → Nat) (e : α)
    {args1 args2 : List α} {kw1 kw2 : List (α × KwValue α)}
    (hargs : args1.Perm args2)
    (hkw : KwEquiv (KwValue.mapping kw1) (KwValue.mapping kw2)) :
    actionHash h e args1 kw1 = actionHash h e args2 kw2 := by
  unfold actionHash
  rw [kwargsHash_equiv h e hkw, argsHash_perm h e hargs]

theorem action_hash_order_independent_witness :
    actionHash (fun n => n) 0 [1, 2]
        [(10, KwValue.scalar 20), (30, KwValue.mapping [(40, KwValue.scalar 50)])]
      = actionHash (fun n => n) 0 [2, 1]
        [(30, KwValue.mapping [(40, KwValue.scalar 50)]), (10, KwValue.scalar 20)] :=
  action_hash_order_independent (fun n => n) 0 (List.Perm.swap 2 1 [])
    (KwEquiv.mswap 10 30 (KwValue.scalar 20)
      (KwValue.mapping [(40, KwValue.scalar 50)]) [])

/-- C3 counterexample: for the mapping `{1: {2: 3}}` (with hash modelled as the
identity on `Nat` and `0` standing for the empty string), the code's
`_get_kwargs_hash` does NOT equal the spec's formula
`hash('') XOR (hash(key) XOR innerHash(value))`: the code's conditional
expression drops `hash(key)` when the value is a nested mapping. -/
theorem kwargs_hash_drops_nested_key :
    kwargsHash (fun n => n) 0 [(1, KwValue.mapping [(2, KwValue.scalar 3)])]
      ≠ 0 ^^^ (1 ^^^ kwargsHash (fun n => n) 0 [(2, KwValue.scalar 3)]) := by
  decide

/-- C3 amended: the attribute-mapping hash starts from `hash('')` and XORs in,
per key/value pair, `hash(key) XOR hash(value)` when the value is a scalar,
but only the recursive mapping hash — with `hash(key)` omitted — when the
value is a nested mapping. -/
theorem kwargs_hash_contribution_spec (h : α → Nat) (e : α) :
    kwargsHash h e ([] : List (α × KwValue α)) = h e
    ∧ (∀ (k a : α) (rest : List (α × KwValue α)),
        kwargsHash h e ((k, KwValue.scalar a) :: rest)
          = (h k ^^^ h a) ^^^ kwargsHash h e rest)
    ∧ (∀ (k : α) (es rest : List (α × KwValue α)),
        kwargsHash h e ((k, KwValue.mapping es) :: rest)
          = kwargsHash h e es ^^^ kwargsHash h e rest) := by
  refine ⟨rfl, fun k a rest => ?_, fun k es rest => ?_⟩ <;> rw [kwargsHash_cons] <;> rfl

/-- C8: an Action with no positional args and an empty kwargs mapping hashes
to `hash('') XOR hash('')`, a fixed value (indeed `0`, independent of the
hash function), and the computation is total. -/
theorem empty_action_hash_constant (h : α → Nat) (e : α) :
    actionHash h e [] [] = h e ^^^ h e ∧ actionHash h e [] [] = 0 := by
  exact ⟨rfl, by simp [actionHash, kwargsHash, kwargsHashAux, argsHash]⟩

/-- C10: a `max_workers` entry passed in kwargs stays in the stored kwargs, so
the identity hash picks up the extra contribution
`hash('max_workers') XOR hash(value)`; whenever that contribution is nonzero
(i.e. the two hashes differ), the hash differs from the same Action built
without the entry. -/
theorem max_workers_kwarg_in_hash (h : α → Nat) (e : α) (args : List α)
    (kw : List (α × KwValue α)) (mk v : α) :
    actionHash h e args ((mk, KwValue.scalar v) :: kw)
        = actionHash h e args kw ^^^ (h mk ^^^ h v)
    ∧ (h mk ≠ h v →
        actionHash h e args ((mk, KwValue.scalar v) :: kw)
          ≠ actionHash h e args kw) := by
  have hmain : actionHash h e args ((mk, KwValue.scalar v) :: kw)
      = actionHash h e args kw ^^^ (h mk ^^^ h v) := by
    unfold actionHash
    rw [kwargsHash_cons]
    show ((h mk ^^^ h v) ^^^ kwargsHash h e kw) ^^^ argsHash h e args
      = (kwargsHash h e kw ^^^ argsHash h e args) ^^^ (h mk ^^^ h v)
    rw [Nat.xor_comm (h mk ^^^ h v) (kwargsHash h e kw), Nat.xor_assoc,
      Nat.xor_comm (h mk ^^^ h v) (argsHash h e args), ← Nat.xor_assoc]
  refine ⟨hmain, fun hne habs => hne ?_⟩
  rw [hmain] at habs
  have h0 : actionHash h e args kw ^^^ (h mk ^^^ h v)
      = actionHash h e args kw ^^^ 0 := by
    rw [Nat.xor_zero]
    exact habs
  exact Nat.xor_eq_zero.mp (Nat.xor_right_inj.mp h0)

theorem max_workers_kwarg_in_hash_witness :
    actionHash (fun n => n) 0 [] [((1 : Nat), KwValue.scalar 5)]
      ≠ actionHash (fun n => n) 0 [] [] :=
  (max_workers_kwarg_in_hash (fun n => n) 0 [] [] 1 5).2 (by decide)

/-- State of a `CheckPageRepeat` instance: `__last_page_text` (initially
`None`), `__repeat_page`, `__check_break`, and `max_page_repeat`. -/
structure CheckPageRepeat where
  lastPageText : Option String
  repeatPage : Nat
  checkBreak : Bool
  maxPageRepeat : Nat
deriving DecidableEq

/-- `CheckPageRepeat.__init__` with its default `max_page_repeat=3`. -/
def CheckPageRepeat.init (maxPageRepeat : Nat := 3) : CheckPageRepeat :=
  { lastPageText := none, repeatPage := 0, checkBreak := false
    maxPageRepeat := maxPageRepeat }

/-- `CheckPageRepeat.__call__(page_text)`: equality with the last text bumps
`__repeat_page` and reports a repeat; otherwise the counter resets to 0 and
the text is stored. The stop condition is the source's literal
`if self.__repeat_page > self.__repeat_page` self-comparison. Returns the
updated state and the `repeat` flag. -/
def CheckPageRepeat.call (s : CheckPageRepeat) (pageText : String) :
    CheckPageRepeat × Bool :=
  let step :=
    if some pageText = s.lastPageText then
      ({ s with repeatPage := s.repeatPage + 1 }, true)
    else
      ({ s with repeatPage := 0, lastPageText := some pageText }, false)
  let s1 := step.1
  if s1.repeatPage > s1.repeatPage then
    ({ s1 with checkBreak := true }, step.2)
  else
    (s1, step.2)

/-- Feeding a list of page bodies, in order, through one `CheckPageRepeat`. -/
def runGuard (s : CheckPageRepeat) : List String → CheckPageRepeat
  | [] => s
  | b :: rest => runGuard (s.call b).1 rest

theorem call_checkBreak (s : CheckPageRepeat) (b : String) :
    ((s.call b).1).checkBreak = s.checkBreak := by
  unfold CheckPageRepeat.call
  by_cases hb : some b = s.lastPageText <;> simp [hb]

theorem runGuard_checkBreak (s : CheckPageRepeat) :
    ∀ bs : List String, (runGuard s bs).checkBreak = s.checkBreak
  | [] => rfl
  | b :: rest => by
      rw [runGuard, runGuard_checkBreak ((s.call b).1) rest, call_checkBreak]

/-- C6: one observe step — a body equal to the stored last body increments the
streak, returns `true` and keeps the stored body; a different body resets the
streak to 0, stores the body, and returns `false`. -/
theorem guard_call_step_spec (s : CheckPageRepeat) (b : String) :
    (some b = s.lastPageText →
      (s.call b).2 = true
      ∧ ((s.call b).1).repeatPage = s.repeatPage + 1
      ∧ ((s.call b).1).lastPageText = s.lastPageText)
    ∧ (some b ≠ s.lastPageText →
      (s.call b).2 = false
      ∧ ((s.call b).1).repeatPage = 0
      ∧ ((s.call b).1).lastPageText = some b) := by
  constructor <;> intro hb <;> simp [CheckPageRepeat.call, hb]

theorem guard_call_step_spec_witness :
    ((CheckPageRepeat.mk (some "A") 1 false 3).call "A").2 = true
    ∧ ((CheckPageRepeat.mk (some "A") 1 false 3).call "A").1.repeatPage = 2
    ∧ ((CheckPageRepeat.mk (some "A") 1 false 3).call "B").2 = false
    ∧ ((CheckPageRepeat.mk (some "A") 1 false 3).call "B").1.lastPageText = some "B" :=
  ⟨((guard_call_step_spec (CheckPageRepeat.mk (some "A") 1 false 3) "A").1 rfl).1,
   ((guard_call_step_spec (CheckPageRepeat.mk (some "A") 1 false 3) "A").1 rfl).2.1,
   ((guard_call_step_spec (CheckPageRepeat.mk (some "A") 1 false 3) "B").2 (by decide)).1,
   ((guard_call_step_spec (CheckPageRepeat.mk (some "A") 1 false 3) "B").2 (by decide)).2.2⟩

/-- C9: `__check_break` is untouched by every call (so, in particular, it
never drops from true back to false), and from a fresh guard it stays `false`
after any observation sequence — hence "check_break is true only if the
streak exceeded the threshold" holds (vacuously, as the flag never becomes
true). -/
theorem check_break_monotone_sound (t : Nat) (bs : List String) :
    (∀ (s : CheckPageRepeat) (b : String), ((s.call b).1).checkBreak = s.checkBreak)
    ∧ (runGuard (CheckPageRepeat.init t) bs).checkBreak = false :=
  ⟨call_checkBreak, runGuard_checkBreak (CheckPageRepeat.init t) bs⟩

/-- C2 is wrong about the code: after five consecutive identical bodies the
repeat streak is 4, which exceeds the threshold 3, yet `__check_break` is
still `false` — the source compares `__repeat_page` with itself instead of
with `max_page_repeat`, so the stop flag can never be raised. Contradicts the
constructor's own docstring ("If repeat is maximum then check_break is
True"). -/
theorem check_break_never_fires_on_repeats :
    (runGuard (CheckPageRepeat.init 3) ["A", "A", "A", "A", "A"]).repeatPage = 4
    ∧ (runGuard (CheckPageRepeat.init 3) ["A", "A", "A", "A", "A"]).repeatPage
        > (CheckPageRepeat.init 3).maxPageRepeat
    ∧ (runGuard (CheckPageRepeat.init 3) ["A", "A", "A", "A", "A"]).checkBreak
        = false := by
  refine ⟨?_, ?_, ?_⟩ <;> decide

/-- The drain loop of `ThreadAction.get_pages`, on the completion-ordered
list of finished fetch tasks `(url, page_text)`. Parsing is the abstract
collaborator `parse`. Per task: one guard call; a non-repeat yields
`(url, parse body)`; a repeat yields nothing and, when `check_break` is set,
breaks out of the loop. -/
def getPages (parse : String → β) (g : CheckPageRepeat) :
    List (String × String) → List (String × β)
  | [] => []
  | (u, body) :: rest =>
      let res := g.call body
      if res.2 then
        if res.1.checkBreak then []
        else getPages parse res.1 rest
      else
        (u, parse body) :: getPages parse res.1 rest

/-- The drain loop of `ThreadAction.get_pages` when `future.result()` may
raise: a task carrying a transport error makes the generator re-raise at that
point, so the output is the pairs yielded so far together with the error. -/
def getPagesE (parse : String → β) (g : CheckPageRepeat) :
    List (String × Except E String) → List (String × β) × Option E
  | [] => ([], none)
  | (_, Except.error err) :: _ => ([], some err)
  | (u, Except.ok body) :: rest =>
      let res := g.call body
      if res.2 then
        if res.1.checkBreak then ([], none)
        else getPagesE parse res.1 rest
      else
        let out := getPagesE parse res.1 rest
        ((u, parse body) :: out.1, out.2)

theorem getPages_length_le (parse : String → β) :
    ∀ (tasks : List (String × String)) (g : CheckPageRepeat),
      (getPages parse g tasks).length ≤ tasks.length
  | [], _ => Nat.le_refl 0
  | (u, body) :: rest, g => by
      simp only [getPages]
      by_cases h2 : (g.call body).2 <;> simp [h2]
      · by_cases hb : ((g.call body).1).checkBreak <;> simp [hb]
        · exact Nat.le_succ_of_le (getPages_length_le parse rest _)
      · exact getPages_length_le parse rest _

theorem getPages_countP_le (parse : String → β) (pred : String → Bool) :
    ∀ (tasks : List (String × String)) (g : CheckPageRepeat),
      (getPages parse g tasks).countP (fun p => pred p.1)
        ≤ tasks.countP (fun q => pred q.1)
  | [], _ => Nat.le_refl 0
  | (u, body) :: rest, g => by
      simp only [getPages]
      by_cases h2 : (g.call body).2 <;> simp [h2, List.countP_cons]
      · by_cases hb : ((g.call body).1).checkBreak <;> simp [hb, List.countP_cons]
        · exact le_trans (getPages_countP_le parse pred rest _)
            (Nat.le_add_right _ _)
      · exact getPages_countP_le parse pred rest _

theorem getPages_mem_fst (parse : String → β) :
    ∀ (tasks : List (String × String)) (g : CheckPageRepeat)
      (p : String × β), p ∈ getPages parse g tasks → p.1 ∈ tasks.map Prod.fst
  | [], _, _, hp => absurd hp (List.not_mem_nil _)
  | (u, body) :: rest, g, p, hp => by
      simp only [getPages] at hp
      by_cases h2 : (g.call body).2 <;> simp [h2] at hp
      · by_cases hb : ((g.call body).1).checkBreak <;> simp [hb] at hp
        · exact List.mem_cons_of_mem u (getPages_mem_fst parse rest _ p hp)
      · rcases hp with hp | hp
        · rw [hp]
          exact List.mem_cons_self u _
        · exact List.mem_cons_of_mem u (getPages_mem_fst parse rest _ p hp)

/-- C4 amended: over any completion order (a permutation of the input URL
list) and any transport, every yielded pair's URL is an input URL, each URL
yields at most as many pairs as it has occurrences in the input (so a URL
listed once yields at most one pair), and at most `len(urls)` pairs are
yielded. The original per-URL at-most-once guarantee fails for duplicated
input URLs. -/
theorem get_pages_yield_guarantees (parse : String → β) (fetch : String → String)
    (urls order : List String) (hperm : order.Perm urls) :
    (∀ p ∈ getPages parse (CheckPageRepeat.init 3)
        (order.map fun u => (u, fetch u)), p.1 ∈ urls)
    ∧ (∀ u : String,
        (getPages parse (CheckPageRepeat.init 3)
            (order.map fun u => (u, fetch u))).countP (fun p => p.1 == u)
          ≤ urls.count u)
    ∧ (getPages parse (CheckPageRepeat.init 3)
        (order.map fun u => (u, fetch u))).length ≤ urls.length := by
  refine ⟨fun p hp => ?_, fun u => ?_, ?_⟩
  · have hm := getPages_mem_fst parse (order.map fun u => (u, fetch u))
      (CheckPageRepeat.init 3) p hp
    simp only [List.map_map] at hm
    have : (Prod.fst ∘ fun u => (u, fetch u)) = id := rfl
    rw [this, List.map_id] at hm
    exact hperm.mem_iff.mp hm
  · have hc := getPages_countP_le parse (· == u)
      (order.map fun u => (u, fetch u)) (CheckPageRepeat.init 3)
    rw [List.countP_map] at hc
    have : ((fun q => q.1 == u) ∘ fun x => (x, fetch x)) = (· == u) := rfl
    rw [this] at hc
    calc (getPages parse (CheckPageRepeat.init 3)
            (order.map fun u => (u, fetch u))).countP (fun p => p.1 == u)
        ≤ order.countP (· == u) := hc
      _ = order.count u := rfl
      _ = urls.count u := hperm.count_eq u
  · calc (getPages parse (CheckPageRepeat.init 3)
          (order.map fun u => (u, fetch u))).length
        ≤ (order.map fun u => (u, fetch u)).length :=
          getPages_length_le parse _ _
      _ = order.length := List.length_map _ _
      _ = urls.length := hperm.length_eq

theorem get_pages_yield_guarantees_witness :
    (getPages (fun s => s) (CheckPageRepeat.init 3)
      (["v", "u"].map fun u => (u, u))).length ≤ (["u", "v"] : List String).length :=
  (get_pages_yield_guarantees (fun s => s) (fun u => u) ["u", "v"] ["v", "u"]
    (List.Perm.swap "u" "v" [])).2.2

/-- C4 counterexample: with input URLs `["u", "v", "u"]` (duplicates are
allowed), a transport returning "A" for "u" and "B" for "v", and completion
in submission order, the URL "u" yields two pairs: the repeat guard only
filters consecutive identical bodies, so each submitted task — not each
distinct URL — can yield. -/
theorem get_pages_duplicate_url_two_pairs :
    (getPages (fun s => s) (CheckPageRepeat.init 3)
        (["u", "v", "u"].map fun u => (u, if u == "u" then "A" else "B"))).countP
      (fun p => p.1 == "u") = 2
    ∧ ¬ ((getPages (fun s => s) (CheckPageRepeat.init 3)
        (["u", "v", "u"].map fun u => (u, if u == "u" then "A" else "B"))).countP
      (fun p => p.1 == "u") ≤ 1) := by
  refine ⟨?_, ?_⟩ <;> decide

/-- C7: when the completion order holds some successfully fetched tasks and
then a task whose transport call failed, the generator yields exactly the
pairs produced from the successful prefix and then re-raises the failure —
the error reaches the consumer (it is never `none`) and the sequence ends at
that point. -/
theorem transport_failure_propagates (parse : String → β) (t : Nat)
    (pre : List (String × String)) (u : String) (err : E)
    (post : List (String × Except E String)) :
    getPagesE parse (CheckPageRepeat.init t)
        (pre.map (fun q => (q.1, Except.ok q.2)) ++ (u, Except.error err) :: post)
      = (getPages parse (CheckPageRepeat.init t) pre, some err) := by
  have main : ∀ (pre : List (String × String)) (g : CheckPageRepeat),
      g.checkBreak = false →
      getPagesE parse g
          (pre.map (fun q => (q.1, Except.ok q.2)) ++ (u, Except.error err) :: post)
        = (getPages parse g pre, some err) := by
    intro pre
    induction pre with
    | nil => intro g _; rfl
    | cons q rest ih =>
        intro g hg
        obtain ⟨u0, b0⟩ := q
        have hnb : ((g.call b0).1).checkBreak = false := by
          rw [call_checkBreak]; exact hg
        simp only [List.map_cons, List.cons_append, getPagesE, getPages, hnb]
        by_cases h2 : (g.call b0).2 <;>
          simp [h2, hnb, ih ((g.call b0).1) hnb]
  exact main pre (CheckPageRepeat.init t) rfl

/-!
`ThreadAction.__init__` stores `kwargs.get('max_workers') or 5`. On an `int`
value, Python's `or` takes the right operand exactly when the left is falsy,
i.e. absent (`None`) or `0`.
-/

/-- The stored `max_workers` of a `ThreadAction`: `kwargs.get('max_workers')
or 5`, on an optional integer kwarg. -/
def threadActionMaxWorkers : Option Int → Int
  | none => 5
  | some v => if v = 0 then 5 else v

/-- C5 counterexample: a caller-supplied `max_workers` of `0` is silently
replaced by the default `5`, and `-2` is stored unchanged — `__init__`
raises no configuration error for non-positive values. -/
theorem max_workers_nonpositive_no_error :
    threadActionMaxWorkers (some 0) = 5 ∧ threadActionMaxWorkers (some (-2)) = -2 := by
  exact ⟨rfl, rfl⟩

/-- C5 amended: an omitted `max_workers` and an explicit `0` both yield the
default worker bound `5`; every nonzero value — negative values included —
is stored unchanged, with no validation in this code. -/
theorem max_workers_default_amended (v : Int) :
    threadActionMaxWorkers none = 5
    ∧ threadActionMaxWorkers (some 0) = 5
    ∧ (v ≠ 0 → threadActionMaxWorkers (some v) = v) := by
  refine ⟨rfl, rfl, fun hv => ?_⟩
  simp [threadActionMaxWorkers, hv]

theorem max_workers_default_amended_witness :
    threadActionMaxWorkers (some (-7)) = -7 :=
  (max_workers_default_amended (-7)).2.2 (by decide)

end Hobbit
